import Mathlib

/-!
Shallow embedding of `run_fm3d.py` (directory-separation based parallelization of
fm3d): the catalog parsers (`load_sources_list`, `load_receiver_dict`), the
partitioner (`split_sources`, `modify_receiver_source`, `reset_moddata_rcv`),
the result mergers (`combine_arrivals`, `combine_ray_sep_data`) and the control
switch reader (`check_source_inversion`).

Modelling conventions:
* Text blocks that Python stores as `"\n".join(lines)` strings and later
  re-splits are modelled directly as `List String` of their lines (the
  split/join round trip is the identity for newline-free lines, which is the
  only case arising: every such line itself came out of a `split("\n")`).
* File reads/writes are abstracted: each function takes the text (or parsed
  lines) it would have read and returns the data it would have written.
  `check_source_inversion`'s file probing becomes an `Option String` argument
  (the control-file content when the file exists).
* Python exceptions that escape a function (`KeyError`, `IndexError`,
  `ValueError`) are modelled with `Except String`; operations whose failure
  cannot occur on the inputs covered by any theorem below are kept total with
  a junk default, and each such spot carries a comment.
* `int(...)` is modelled by `pyInt?`, Python list indexing with negative wrap
  by `pyGetStr` / `pySlice`.
-/

/-- Split a character list at every separator (the string-split recursion,
written structurally so that it evaluates by definitional reduction). -/
def splitCharList (p : Char → Bool) : List Char → List (List Char)
  | [] => [[]]
  | c :: cs =>
    if p c then [] :: splitCharList p cs
    else
      match splitCharList p cs with
      | [] => [[c]]
      | t :: ts => (c :: t) :: ts

/-- Split a string at every character satisfying `p`, keeping empty pieces
(the semantics of Python `s.split(sep)` with an explicit one-character
separator, and of `String.split`). -/
def splitStr (s : String) (p : Char → Bool) : List String :=
  (splitCharList p s.data).map (fun cs => String.mk cs)

/-- Python `s.strip()`: drop leading and trailing whitespace. -/
def trimStr (s : String) : String :=
  String.mk (((s.data.dropWhile Char.isWhitespace).reverse.dropWhile
    Char.isWhitespace).reverse)

/-- Python `sep.join(parts)`. -/
def joinSep (sep : String) : List String → String
  | [] => ""
  | [x] => x
  | x :: y :: rest => x ++ sep ++ joinSep sep (y :: rest)

/-- Whether `needle` is an initial segment of `hay`. -/
def beginsWith : List Char → List Char → Bool
  | _, [] => true
  | [], _ :: _ => false
  | h :: hs, n :: ns => h = n && beginsWith hs ns

/-- Whether `needle` occurs inside `hay` (Python `needle in hay`). -/
def containsSub (needle : List Char) : List Char → Bool
  | [] => needle.isEmpty
  | c :: cs => beginsWith (c :: cs) needle || containsSub needle cs

/-- Tokens of `[x for x in l.split(" ") if x]`: split on single spaces, keep
nonempty pieces. -/
def tokensSp (l : String) : List String :=
  (splitStr l (fun c => c = ' ')).filter (fun x => x ≠ "")

/-- Tokens of `[x for x in l.split(" ") if x.strip()]`: split on single spaces,
keep pieces that are nonblank after stripping. -/
def fieldsSp (l : String) : List String :=
  (splitStr l (fun c => c = ' ')).filter (fun x => trimStr x ≠ "")

/-- Tokens of `re.split(r"\s+", s)` for an already-stripped `s`: split on
whitespace runs.  (For `s` entirely whitespace Python yields `[""]` while this
yields `[]`; in the source that case immediately raises via `int("")`, and the
call sites modelled here are guarded accordingly.) -/
def wsTokens (s : String) : List String :=
  (splitStr s Char.isWhitespace).filter (fun x => x ≠ "")

/-- Digits of a decimal numeral to a natural number. -/
def digitsToNat (cs : List Char) : Nat :=
  cs.foldl (fun n c => n * 10 + (c.toNat - '0'.toNat)) 0

/-- Python `int(s)`: strip, optional sign, decimal digits; `none` where Python
raises `ValueError`. -/
def pyInt? (s : String) : Option Int :=
  let t := (trimStr s).data
  match t with
  | '-' :: core =>
    if core ≠ [] ∧ core.all Char.isDigit then some (-(digitsToNat core : Int)) else none
  | '+' :: core =>
    if core ≠ [] ∧ core.all Char.isDigit then some ((digitsToNat core : Int)) else none
  | core =>
    if core ≠ [] ∧ core.all Char.isDigit then some ((digitsToNat core : Int)) else none

/-- Python `"." in l`. -/
def hasDot (l : String) : Bool := l.data.any (fun c => c = '.')

/-- Python `re.search("[0-9]", l)` (as a Bool). -/
def hasDigit (l : String) : Bool := l.data.any Char.isDigit

/-- Python `lines[i]` for `i : Int` with negative-index wrap-around.  Out of
range yields `""` (Python raises `IndexError`; never reached under the
hypotheses of the theorems below). -/
def pyGetStr (lines : List String) (i : Int) : String :=
  if i < 0 then lines.getD (i + lines.length).toNat "" else lines.getD i.toNat ""

/-- Python slice `l[a:b]` for `Int` bounds: negative indices wrap once by the
length, then both bounds clamp into `[0, len]`. -/
def pySlice {α : Type} (l : List α) (a b : Int) : List α :=
  let n : Int := l.length
  let norm : Int → Nat := fun i =>
    let j := if i < 0 then i + n else i
    (max 0 (min j n)).toNat
  (l.drop (norm a)).take (norm b - norm a)

/-- Substring test `needle in hay` of Python. -/
def containsStr (hay needle : String) : Bool :=
  containsSub needle.data hay.data

/-- Error-propagating map over a list (the behaviour of a Python `for` loop
whose body may raise). -/
def eMapM {α β : Type} (f : α → Except String β) : List α → Except String (List β)
  | [] => .ok []
  | a :: as =>
    match f a with
    | .error e => .error e
    | .ok b =>
      match eMapM f as with
      | .error e => .error e
      | .ok bs => .ok (b :: bs)

/-- Map with an accumulator threaded left-to-right. -/
def mapAccumL {σ α β : Type} (f : σ → α → σ × β) : σ → List α → σ × List β
  | s, [] => (s, [])
  | s, a :: as =>
    let (s₁, b) := f s a
    let (s₂, bs) := mapAccumL f s₁ as
    (s₂, b :: bs)

/-- Lines of a catalog file after the count line: `infile.read().split("\n")[1:]`
filtered to nonblank lines. -/
def catalogLines (text : String) : List String :=
  ((splitStr text (fun c => c = '\n')).drop 1).filter (fun l => trimStr l ≠ "")

/-- Start indices (as `Int`, Python indices) of source blocks in
`load_sources_list`: a line with a decimal point is a location line; if the
preceding line (Python `lines[i-1]`, with wrap) has no digit the block starts
two lines up (teleseismic), else one line up. -/
def sourceStarts (lines : List String) : List Int :=
  (List.range lines.length).filterMap (fun i =>
    if hasDot (lines.getD i "") then
      some (if hasDigit (pyGetStr lines ((i : Int) - 1)) then (i : Int) - 1 else (i : Int) - 2)
    else none)

/-- Embedding of `load_sources_list`: the list of `(id, block lines)` pairs,
ids assigned positionally from 1. -/
def loadSourcesList (text : String) : List (Int × List String) :=
  let lines := catalogLines text
  let starts := sourceStarts lines ++ [(lines.length : Int)]
  (List.range (starts.length - 1)).map (fun (i : Nat) =>
    ((i + 1 : Int), pySlice lines (starts.getD i 0) (starts.getD (i + 1) 0)))

/-- Start indices of receiver blocks in `load_receiver_dict`: every line with a
decimal point starts a block. -/
def receiverStarts (lines : List String) : List Nat :=
  (List.range lines.length).filter (fun i => hasDot (lines.getD i ""))

/-- Append a receiver block to the entry of source `k` in the dictionary
(insertion-ordered association list), creating the entry if absent. -/
def dictAppend (d : List (Int × List (List String))) (k : Int) (v : List String) :
    List (Int × List (List String)) :=
  match d with
  | [] => [(k, [v])]
  | (k₀, vs) :: rest =>
    if k₀ = k then (k₀, vs ++ [v]) :: rest else (k₀, vs) :: dictAppend rest k v

/-- Dictionary lookup (`receiver_dict[s_id]` succeeds iff this is `some`). -/
def dictFind (d : List (Int × List (List String))) (k : Int) :
    Option (List (List String)) :=
  match d with
  | [] => none
  | (k₀, vs) :: rest => if k₀ = k then some vs else dictFind rest k

/-- Parse every token as an integer (`[int(x) for x in ...]`); `none` where
some `int` raises.  The empty token list also maps to `none`: it arises from
`re.split` on a blank string, where Python gets `[""]` and `int("")` raises. -/
def allInts (ts : List String) : Option (List Int) :=
  if ts.isEmpty then none else ts.mapM pyInt?

/-- Embedding of `load_receiver_dict`: the source-id → receiver-blocks
dictionary and the moddata (multi-source) detection flag.  Errors where the
Python loop raises an uncaught exception (third block line missing, or a
multi-source id line whose tokens do not all parse as integers). -/
def loadReceiverDict (text : String) :
    Except String (List (Int × List (List String)) × Bool) :=
  let lines := catalogLines text
  let starts := receiverStarts lines ++ [lines.length]
  let receivers := (List.range (starts.length - 1)).map (fun i =>
    (lines.drop (starts.getD i 0)).take (starts.getD (i + 1) 0 - starts.getD i 0))
  receivers.foldlM (fun (acc : List (Int × List (List String)) × Bool) r =>
    match r.get? 2 with
    | none => .error "IndexError: list index out of range"
    | some l =>
      match pyInt? l with
      | some sid => .ok (dictAppend acc.1 sid r, acc.2)
      | none =>
        match allInts (wsTokens (trimStr l)) with
        | none => .error "ValueError: invalid literal for int()"
        | some sids => .ok (sids.foldl (fun d s => dictAppend d s r) acc.1, true))
    ([], false)

/-- Embedding of `modify_receiver_source`: replace the third line of a
receiver block with `"           %u" % int(new_source)` (11 spaces and the
id), leaving every other line unchanged. -/
def modifyReceiverSource (receiverLines : List String) (newSource : Int) : List String :=
  receiverLines.set 2 ("           " ++ toString newSource)

/-- Embedding of the per-block body of `reset_moddata_rcv`: keep only the
source-id entries (third line) whose integer value lies in `srcIds`, keep the
aligned path specs (fourth line), renumber retained ids `1..m`, and rewrite
the count line accordingly.  `paths.getD a ""` stands for Python `paths[a]`
(which would raise when out of range); unparsable id tokens, on which Python
would raise, are treated as not retained. -/
def resetBlock (srcIds : List Int) (block : List String) : List String :=
  let rcvSrcIds := wsTokens (trimStr (block.getD 2 ""))
  let paths := wsTokens (trimStr (block.getD 3 ""))
  let active := (List.range rcvSrcIds.length).filter (fun i =>
    match pyInt? (rcvSrcIds.getD i "") with
    | some v => decide (v ∈ srcIds)
    | none => false)
  let activePaths := active.map (fun a => paths.getD a "")
  let activeRcvSrcIds := (List.range' 1 active.length).map (fun n => toString n)
  ((block.set 1 ("           " ++ toString active.length)).set 2
      ("           " ++ joinSep "           " activeRcvSrcIds)).set 3
      ("           " ++ joinSep "           " activePaths)

/-- Embedding of `reset_moddata_rcv` over a list of receiver blocks. -/
def resetModdataRcv (blocks : List (List String)) (srcIds : List Int) :
    List (List String) :=
  blocks.map (resetBlock srcIds)

/-- One per-core partition as written by `split_sources`: the chunk of
`sources.in` entries, the parallel chunk of `sourcesref.in` entries, and the
receiver blocks written to the core's `receivers.in`. -/
structure Partition where
  subS : List (Int × List String)
  subSref : List (Int × List String)
  receivers : List (List String)
deriving DecidableEq

/-- Section sizes of `np.array_split` for length `S` into `n` sections:
`S % n` sections of size `S / n + 1` followed by `n - S % n` of size `S / n`. -/
def chunkSizes (S n : Nat) : List Nat :=
  List.replicate (S % n) (S / n + 1) ++ List.replicate (n - S % n) (S / n)

/-- Cut a list into consecutive chunks of the given sizes. -/
def splitBySizes {α : Type} : List Nat → List α → List (List α)
  | [], _ => []
  | s :: ss, l => l.take s :: splitBySizes ss (l.drop s)

/-- Embedding of `np.array_split(l, n)` (for `n ≥ 1`; the `n = 0` `ValueError`
is raised by the caller `splitSourcesCore` before this is reached). -/
def arraySplit {α : Type} (l : List α) (n : Nat) : List (List α) :=
  splitBySizes (chunkSizes l.length n) l

/-- Receiver blocks for one chunk of `split_sources`: moddata mode takes the
first source's receiver set and filters it with `reset_moddata_rcv`;
single-source mode concatenates each source's receivers, rewriting the id line
when the normalized id (`s_id - firstId + 1`) differs from the original.
A missing dictionary entry is the Python `KeyError`. -/
def receiversFor (dict : List (Int × List (List String))) (moddata : Bool)
    (firstId : Int) (sourceIds : List Int) : Except String (List (List String)) :=
  if moddata then
    match dictFind dict firstId with
    | none => .error ("KeyError: " ++ toString firstId)
    | some rs => .ok (resetModdataRcv rs sourceIds)
  else
    match eMapM (fun sid =>
        match dictFind dict sid with
        | none => .error ("KeyError: " ++ toString sid)
        | some rs =>
          .ok (if sid = sid - firstId + 1 then rs
               else rs.map (fun r => modifyReceiverSource r (sid - firstId + 1)))) sourceIds with
    | .error e => .error e
    | .ok rss => .ok rss.flatten

/-- Processing of one `(sources chunk, sourcesref chunk)` pair in the
`split_sources` loop.  An empty chunk is the Python `IndexError` on
`source_ids[0]`. -/
def processChunk (dict : List (Int × List (List String))) (moddata : Bool)
    (pr : List (Int × List String) × List (Int × List String)) :
    Except String Partition :=
  match pr.1 with
  | [] => .error "IndexError: list index out of range"
  | (firstId, _) :: _ =>
    match receiversFor dict moddata firstId (pr.1.map (fun p => p.1)) with
    | .error e => .error e
    | .ok rcvs => .ok ⟨pr.1, pr.2, rcvs⟩

/-- Embedding of `split_sources` after its two loads: clamp the core count to
the number of sources, check the sources/sourcesref count match (Python
`ValueError`), split both lists with `np.array_split` (which raises on zero
sections) and process each chunk.  Returns the partitions and the effective
core count. -/
def splitSourcesCore (sources sourcesRef : List (Int × List String))
    (dict : List (Int × List (List String))) (moddata : Bool) (cores : Nat) :
    Except String (List Partition × Nat) :=
  let cores := if sources.length < cores then sources.length else cores
  if sources.length ≠ sourcesRef.length then
    .error "ValueError: Sources doesn't match sources ref"
  else if cores = 0 then
    .error "ValueError: number sections must be larger than 0."
  else
    match eMapM (processChunk dict moddata)
        ((arraySplit sources cores).zip (arraySplit sourcesRef cores)) with
    | .error e => .error e
    | .ok parts => .ok (parts, cores)

/-- One row of an `arrivals.dat` file: 7 whitespace-delimited columns, read by
`pd.read_csv(f, sep=r"\s+", names=[0,...,6])`.  Column 1 (0-indexed) holds the
partition-local event id. -/
structure Row7 where
  c0 : Int
  c1 : Int
  c2 : Int
  c3 : Int
  c4 : Int
  c5 : Int
  c6 : Int
deriving DecidableEq

/-- First occurrences of each value, in first-seen order. -/
def dedupFirst (l : List Int) : List Int :=
  l.foldl (fun acc x => if x ∈ acc then acc else acc ++ [x]) []

/-- Insert into a ≤-sorted list keeping it sorted. -/
def insertSorted (x : Int) : List Int → List Int
  | [] => [x]
  | y :: ys => if x ≤ y then x :: y :: ys else y :: insertSorted x ys

/-- Insertion sort (ascending). -/
def sortInts (l : List Int) : List Int := l.foldr insertSorted []

/-- Distinct values of column 1 of a file, in the ascending order in which
`df.groupby(1)` (default `sort=True`) iterates its groups. -/
def sortedKeys (f : List Row7) : List Int :=
  sortInts (dedupFirst (f.map (fun r => r.c1)))

/-- The groups `[df for _, df in df_tmp.groupby(1)]`: one group per distinct
column-1 value, iterated in ascending key order, each keeping row order. -/
def groupsOf (f : List Row7) : List (List Row7) :=
  (sortedKeys f).map (fun k => f.filter (fun r => r.c1 = k))

/-- Body of the `combine_arrivals` file loop: number this file's groups with
consecutive counter values (overwriting column 1) and append them. -/
def processArrFile (st : Nat × List (List Row7)) (f : List Row7) :
    Nat × List (List Row7) :=
  (groupsOf f).foldl
    (fun (p : Nat × List (List Row7)) g =>
      (p.1 + 1, p.2 ++ [g.map (fun r => { r with c1 := (p.1 : Int) })])) st

/-- Reset of the ray-index column: `df[0] = np.arange(1, len(df)+1)`. -/
def renumberC0 (rows : List Row7) : List Row7 :=
  rows.enum.map (fun p => { p.2 with c0 := (p.1 : Int) + 1 })

/-- Embedding of `combine_arrivals` (the combined table it writes): group each
file by column 1, number the groups with a global counter starting at 1,
concatenate everything and renumber column 0 contiguously. -/
def combineArrivals (files : List (List Row7)) : List Row7 :=
  renumberC0 ((files.foldl processArrFile (1, [])).2.flatten)

/-- Grouping that follows the specification text instead of the source: groups
taken per file in first-seen order of the column-1 value (pandas `groupby`
actually iterates them in ascending key order).  Used only to compare the
specified behaviour against `combineArrivals`. -/
def groupsOfFirstSeen (f : List Row7) : List (List Row7) :=
  (dedupFirst (f.map (fun r => r.c1))).map (fun k => f.filter (fun r => r.c1 = k))

/-- Per-file step of the specification-text variant of the arrivals merge. -/
def processArrFileFirstSeen (st : Nat × List (List Row7)) (f : List Row7) :
    Nat × List (List Row7) :=
  (groupsOfFirstSeen f).foldl
    (fun (p : Nat × List (List Row7)) g =>
      (p.1 + 1, p.2 ++ [g.map (fun r => { r with c1 := (p.1 : Int) })])) st

/-- Arrivals merge as the specification words it (first-seen group order). -/
def combineArrivalsFirstSeen (files : List (List Row7)) : List Row7 :=
  renumberC0 ((files.foldl processArrFileFirstSeen (1, [])).2.flatten)

/-- Flat numbering of a group list: group at offset `j` gets id `c + j`
written into column 1 of each of its rows. -/
def numberGroups (c : Nat) : List (List Row7) → List (List Row7)
  | [] => []
  | g :: gs => g.map (fun r => { r with c1 := (c : Int) }) :: numberGroups (c + 1) gs

/-- Running merge state of `combine_ray_sep_data`: the ray index counter, the
global event counter, and the count of distinct events from prior files. -/
structure RsState where
  rayIdx : Nat
  counter : Nat
  nEvsPrev : Nat
deriving DecidableEq

/-- Header test of `combine_ray_sep_data`: more than `minN` space-separated
fields. -/
def isHeaderLine (minN : Nat) (l : String) : Bool :=
  (tokensSp l).length > minN

/-- Indices of the header lines of one file. -/
def headerIdxs (minN : Nat) (data : List String) : List Nat :=
  (List.range data.length).filter (fun i => isHeaderLine minN (data.getD i ""))

/-- Per-header rewrite of `combine_ray_sep_data`.  State is
`(ray index, event counter, unique event ids seen in this file)`; the second
token is the local event id; for `rays.dat` tokens 1 and 2 become the event
counter, otherwise token 0 becomes the ray index and token 1 the event
counter.  The ray index advances once per header either way. -/
def stepHeader (out : String) (st : Nat × Nat × List String) (toks : List String) :
    (Nat × Nat × List String) × List String :=
  let ev := toks.getD 1 ""
  let cu : Nat × List String :=
    if ev ∈ st.2.2 then (st.2.1, st.2.2) else (st.2.1 + 1, st.2.2 ++ [ev])
  let toks' :=
    if out = "rays.dat" then (toks.set 1 (toString cu.1)).set 2 (toString cu.1)
    else (toks.set 0 (toString st.1)).set 1 (toString cu.1)
  ((st.1 + 1, cu.1, cu.2), toks')

/-- Write rewritten header tokens back at their indices, tab-joined
(`data[idx] = "\t".join(line)`). -/
def writeBack (data : List String) (ps : List (Nat × List String)) : List String :=
  ps.foldl (fun d p => d.set p.1 (joinSep "\t" p.2)) data

/-- Header-rewriting phase of one file of `combine_ray_sep_data`: returns
`((ray index, event counter, number of unique events), rewritten lines)`. -/
def rewriteHeaders (out : String) (minN : Nat) (ray ctr : Nat) (data : List String) :
    (Nat × Nat × Nat) × List String :=
  let idxs := headerIdxs minN data
  let toksList := idxs.map (fun i => tokensSp (data.getD i ""))
  let r := mapAccumL (stepHeader out) (ray, ctr, []) toksList
  ((r.1.1, r.1.2.1, r.1.2.2.length), writeBack data (idxs.zip r.2))

/-- Python `l.replace("\t", " ")`. -/
def replaceTab (l : String) : String :=
  String.mk (l.data.map (fun c => if c = '\t' then ' ' else c))

/-- The frechet fix of one line: re-tokenize (tabs count as separators), add
`4 * p` to the first field, tab-join.  An unparsable first field (where Python
raises) is read as 0. -/
def fixFrech (p : Nat) (l : String) : String :=
  let toks := fieldsSp (replaceTab l)
  let v := (pyInt? (toks.getD 0 "")).getD 0
  joinSep "\t" (toks.set 0 (toString (v + 4 * (p : Int))))

/-- Python index `idx - subtract` (which may wrap when negative). -/
def pyIdxNat (i : Int) (len : Nat) : Nat :=
  if i < 0 then (i + len).toNat else i.toNat

/-- Correction at one boundary index `idx`: fix the four lines
`data[idx-1] .. data[idx-4]` in that order. -/
def corrAt (p : Nat) (idx : Nat) (d : List String) : List String :=
  [1, 2, 3, 4].foldl
    (fun d sub =>
      let j := pyIdxNat ((idx : Int) - (sub : Int)) d.length
      d.set j (fixFrech p (d.getD j ""))) d

/-- The relocation correction loop `for idx in idxs[1:]` of
`combine_ray_sep_data`. -/
def frechetCorrection (p : Nat) (targets : List Nat) (data : List String) :
    List String :=
  targets.foldl (fun d idx => corrAt p idx d) data

/-- Boundary list `idxs[1:]` where `idxs` is the header indices with
`len(data)` appended. -/
def corrTargets (minN : Nat) (data : List String) : List Nat :=
  (headerIdxs minN data ++ [data.length]).tail

/-- One file of `combine_ray_sep_data`: rewrite headers, then, when the output
name contains "frechet" and source inversion is on, apply the correction at
every boundary of `idxs[1:]`; finally account this file's unique events. -/
def processFile (out : String) (minN : Nat) (srcInv : Bool) (st : RsState)
    (data : List String) : RsState × List String :=
  let r := rewriteHeaders out minN st.rayIdx st.counter data
  let data₂ :=
    if containsStr out "frechet" && srcInv then
      frechetCorrection st.nEvsPrev (corrTargets minN data) r.2
    else r.2
  (⟨r.1.1, r.1.2.1, st.nEvsPrev + r.1.2.2⟩, data₂)

/-- Embedding of `combine_ray_sep_data` (the lines it writes, in order): files
processed in order with the running state threaded through, outputs
concatenated.  `srcInv` is the value `check_source_inversion()` returns in
that run. -/
def combineRaySep (out : String) (files : List (List String)) (minN : Nat)
    (srcInv : Bool) : List String :=
  (mapAccumL (processFile out minN srcInv) ⟨1, 0, 0⟩ files).2.flatten

/-- Sum of the lengths of the first `k` files: position of file `k`'s first
line in the combined output. -/
def offsetOf (files : List (List String)) (k : Nat) : Nat :=
  ((files.take k).map List.length).sum

/-- Python `line.split(" ")[0]`. -/
def headTokSp (l : String) : String :=
  (splitStr l (fun c => c = ' ')).headD ""

/-- Embedding of `check_source_inversion`.  `invert` is the content of
`invert3d.in` when that file exists.  With the control file: the token of line
index 24 before the first space must parse as an integer (else Python's
uncaught `ValueError`/`IndexError`), and the switch is on iff it is nonzero.
Without it: the third line of `sourcesref.in` must exist, and the switch is on
iff that line has more than 3 space-separated nonblank fields. -/
def checkSourceInversion (invert : Option String) (sref : String) :
    Except String Bool :=
  match invert with
  | some content =>
    let lines := splitStr content (fun c => c = '\n')
    if 24 < lines.length then
      match pyInt? (headTokSp (lines.getD 24 "")) with
      | some v => .ok (v ≠ 0)
      | none => .error "ValueError: invalid literal for int()"
    else .error "IndexError: list index out of range"
  | none =>
    let srlines := splitStr sref (fun c => c = '\n')
    if 2 < srlines.length then
      .ok (3 < (fieldsSp (srlines.getD 2 "")).length)
    else .error "IndexError: list index out of range"

/-- Success test for `Except`. -/
def isOkE {ε α : Type} : Except ε α → Bool
  | .ok _ => true
  | .error _ => false

/-! ### Generic helper lemmas -/

theorem getD_set_ne {α : Type} (l : List α) (i j : Nat) (x d : α) (h : i ≠ j) :
    (l.set i x).getD j d = l.getD j d := by
  induction l generalizing i j with
  | nil => simp [List.set]
  | cons a as ih =>
    cases i with
    | zero =>
      cases j with
      | zero => exact absurd rfl h
      | succ j => simp [List.set, List.getD]
    | succ i =>
      cases j with
      | zero => simp [List.set, List.getD]
      | succ j =>
        simp only [List.set, List.getD_cons_succ]
        exact ih i j (fun hij => h (by omega))

theorem getD_set_self {α : Type} (l : List α) (i : Nat) (x d : α) (h : i < l.length) :
    (l.set i x).getD i d = x := by
  induction l generalizing i with
  | nil => simp at h
  | cons a as ih =>
    cases i with
    | zero => simp [List.set, List.getD]
    | succ i =>
      simp only [List.set, List.getD_cons_succ]
      exact ih i (by simpa using h)

theorem eMapM_map_ok {α β : Type} (f : α → Except String β) (g : α → β) (l : List α)
    (h : ∀ a ∈ l, f a = .ok (g a)) : eMapM f l = .ok (l.map g) := by
  induction l with
  | nil => rfl
  | cons a as ih =>
    simp only [eMapM, h a (by simp), ih (fun x hx => h x (by simp [hx])), List.map]

theorem eMapM_ok_map {α β : Type} (f : α → Except String β) (g : α → β) (l : List α)
    (bs : List β) (h : eMapM f l = .ok bs)
    (hg : ∀ a ∈ l, ∀ b, f a = .ok b → b = g a) : bs = l.map g := by
  induction l generalizing bs with
  | nil => simp [eMapM] at h; simp [← h]
  | cons a as ih =>
    simp only [eMapM] at h
    cases hfa : f a with
    | error e => rw [hfa] at h; exact absurd h (by simp)
    | ok b =>
      rw [hfa] at h
      cases hrest : eMapM f as with
      | error e => rw [hrest] at h; exact absurd h (by simp)
      | ok bs' =>
        rw [hrest] at h
        have hbs : bs = b :: bs' := by
          have := h
          simp only [Except.ok.injEq] at this
          exact this.symm
        subst hbs
        have h1 : b = g a := hg a (by simp) b hfa
        have h2 : bs' = as.map g := ih bs' hrest (fun x hx => hg x (by simp [hx]))
        simp [h1, h2]

theorem eMapM_error_of_mem {α β : Type} (f : α → Except String β) (l : List α) (a : α)
    (ha : a ∈ l) (hf : isOkE (f a) = false) : isOkE (eMapM f l) = false := by
  induction l with
  | nil => simp at ha
  | cons x xs ih =>
    simp only [eMapM]
    cases hfx : f x with
    | error e => simp [isOkE]
    | ok b =>
      rcases List.mem_cons.mp ha with h | h
      · subst h; rw [hfx] at hf; simp [isOkE] at hf
      · have h2 := ih h
        cases hrest : eMapM f xs with
        | error e => simp [isOkE]
        | ok bs => rw [hrest] at h2; simp [isOkE] at h2

theorem length_splitBySizes {α : Type} (ss : List Nat) (l : List α) :
    (splitBySizes ss l).length = ss.length := by
  induction ss generalizing l with
  | nil => rfl
  | cons s ss ih => simp [splitBySizes, ih]

theorem flatten_splitBySizes {α : Type} (ss : List Nat) (l : List α)
    (h : ss.sum = l.length) : (splitBySizes ss l).flatten = l := by
  induction ss generalizing l with
  | nil =>
    simp at h
    simp [splitBySizes, List.eq_nil_of_length_eq_zero h.symm]
  | cons s ss ih =>
    have h' : s + ss.sum = l.length := by simpa using h
    simp only [splitBySizes, List.flatten_cons]
    rw [ih (l.drop s) (by simp [List.length_drop]; omega)]
    exact List.take_append_drop s l

theorem map_length_splitBySizes {α : Type} (ss : List Nat) (l : List α)
    (h : ss.sum = l.length) : (splitBySizes ss l).map List.length = ss := by
  induction ss generalizing l with
  | nil => rfl
  | cons s ss ih =>
    have h' : s + ss.sum = l.length := by simpa using h
    simp only [splitBySizes, List.map_cons]
    have hs : s ≤ l.length := by omega
    rw [List.length_take, Nat.min_eq_left hs, ih (l.drop s) (by simp [List.length_drop]; omega)]

theorem sum_chunkSizes (S n : Nat) (h : 0 < n) : (chunkSizes S n).sum = S := by
  have hle : S % n ≤ n := Nat.le_of_lt (Nat.mod_lt _ h)
  simp only [chunkSizes, List.sum_append, List.sum_replicate, smul_eq_mul]
  have h2 : S % n + n * (S / n) = S := Nat.mod_add_div S n
  have e1 : (n - S % n) * (S / n) = n * (S / n) - S % n * (S / n) := Nat.sub_mul n (S % n) (S / n)
  have e2 : S % n * (S / n) ≤ n * (S / n) := Nat.mul_le_mul_right _ hle
  have e3 : S % n * (S / n + 1) = S % n * (S / n) + S % n := by ring
  omega

theorem length_chunkSizes (S n : Nat) (h : 0 < n) : (chunkSizes S n).length = n := by
  have hle : S % n ≤ n := Nat.le_of_lt (Nat.mod_lt _ h)
  simp [chunkSizes]
  omega

theorem mem_chunkSizes (S n s : Nat) (h : s ∈ chunkSizes S n) :
    s = S / n ∨ s = S / n + 1 := by
  simp only [chunkSizes, List.mem_append, List.mem_replicate] at h
  rcases h with ⟨-, h⟩ | ⟨-, h⟩
  · right; exact h
  · left; exact h

theorem length_insertSorted (x : Int) (l : List Int) :
    (insertSorted x l).length = l.length + 1 := by
  induction l with
  | nil => rfl
  | cons y ys ih =>
    simp only [insertSorted]
    by_cases h : x ≤ y <;> simp [h, ih]

theorem length_sortInts (l : List Int) : (sortInts l).length = l.length := by
  induction l with
  | nil => rfl
  | cons x xs ih => simp [sortInts, List.foldr] at ih ⊢; rw [length_insertSorted, ih]

theorem mem_insertSorted (x y : Int) (l : List Int) :
    y ∈ insertSorted x l ↔ y = x ∨ y ∈ l := by
  induction l with
  | nil => simp [insertSorted]
  | cons z zs ih =>
    simp only [insertSorted]
    by_cases h : x ≤ z
    · rw [if_pos h]; simp only [List.mem_cons]
    · rw [if_neg h]; simp only [List.mem_cons, ih]; tauto

theorem sorted_insertSorted (x : Int) (l : List Int) (h : l.Sorted (· ≤ ·)) :
    (insertSorted x l).Sorted (· ≤ ·) := by
  induction l with
  | nil => simp [insertSorted]
  | cons y ys ih =>
    rcases List.sorted_cons.mp h with ⟨hy, hys⟩
    simp only [insertSorted]
    by_cases hxy : x ≤ y
    · rw [if_pos hxy]
      refine List.sorted_cons.mpr ⟨?_, h⟩
      intro b hb
      rcases List.mem_cons.mp hb with rfl | hb
      · exact hxy
      · exact le_trans hxy (hy b hb)
    · rw [if_neg hxy]
      refine List.sorted_cons.mpr ⟨?_, ih hys⟩
      intro b hb
      rcases (mem_insertSorted x b ys).mp hb with rfl | hb
      · omega
      · exact hy b hb

theorem sorted_sortInts (l : List Int) : (sortInts l).Sorted (· ≤ ·) := by
  induction l with
  | nil => simp [sortInts]
  | cons x xs ih => exact sorted_insertSorted x _ ih

theorem mem_sortInts (l : List Int) (y : Int) : y ∈ sortInts l ↔ y ∈ l := by
  induction l with
  | nil => simp [sortInts]
  | cons x xs ih =>
    simp only [sortInts, List.foldr] at ih ⊢
    rw [mem_insertSorted, ih, List.mem_cons]

theorem mem_dedupFirst (l : List Int) (y : Int) : y ∈ dedupFirst l ↔ y ∈ l := by
  have key : ∀ (l acc : List Int),
      y ∈ l.foldl (fun acc x => if x ∈ acc then acc else acc ++ [x]) acc ↔
        y ∈ acc ∨ y ∈ l := by
    intro l
    induction l with
    | nil => intro acc; simp
    | cons x xs ih =>
      intro acc
      simp only [List.foldl]
      rw [ih]
      by_cases hx : x ∈ acc
      · rw [if_pos hx]
        simp only [List.mem_cons]
        constructor
        · rintro (h | h); exacts [Or.inl h, Or.inr (Or.inr h)]
        · rintro (h | rfl | h); exacts [Or.inl h, Or.inl hx, Or.inr h]
      · rw [if_neg hx]
        simp only [List.mem_append, List.mem_singleton, List.mem_cons]
        tauto
  rw [dedupFirst, key]
  simp

/-! ### Claim C8: `check_source_inversion` -/

/-- C8: `check_source_inversion` returns true iff the token of the control
file's switch line (line index 24) before the first space is a nonzero
integer; with the control file absent it returns true iff the reference-source
file's third line exists and carries more than 3 space-separated nonblank
fields (uncertainty columns). -/
theorem check_source_inversion_spec :
    (∀ ctrl sref : String,
        checkSourceInversion (some ctrl) sref = .ok true ↔
          ∃ v, pyInt? (headTokSp ((splitStr ctrl (fun c => c = '\n')).getD 24 "")) = some v ∧ v ≠ 0) ∧
    (∀ sref : String,
        checkSourceInversion none sref = .ok true ↔
          (2 < (splitStr sref (fun c => c = '\n')).length ∧
            3 < (fieldsSp ((splitStr sref (fun c => c = '\n')).getD 2 "")).length)) := by
  constructor
  · intro ctrl sref
    simp only [checkSourceInversion]
    by_cases h24 : 24 < (splitStr ctrl (fun c => c = '\n')).length
    · rw [if_pos h24]
      cases hp : pyInt? (headTokSp ((splitStr ctrl (fun c => c = '\n')).getD 24 "")) with
      | none => simp
      | some v => simp
    · rw [if_neg h24]
      have hd : (splitStr ctrl (fun c => c = '\n')).getD 24 "" = "" :=
        List.getD_eq_default _ _ (by omega)
      rw [hd]
      have hz : pyInt? (headTokSp "") = none := rfl
      simp [hz]
  · intro sref
    simp only [checkSourceInversion]
    by_cases h2 : 2 < (splitStr sref (fun c => c = '\n')).length
    · rw [if_pos h2]; simp [h2]
    · rw [if_neg h2]; simp [h2]

/-! ### Claim C9: the arrivals counter advances once per distinct present id -/

/-- C9: in `combine_arrivals`, processing one file advances the global source
counter by exactly the number of distinct local event ids actually present in
that file's column-1 values (one new group per distinct id), independently of
how many sources the originating partition held. -/
theorem arrivals_counter_per_distinct_event :
    ∀ (c : Nat) (dfs : List (List Row7)) (f : List Row7),
      (processArrFile (c, dfs) f).1 = c + (dedupFirst (f.map (fun r => r.c1))).length ∧
      (processArrFile (c, dfs) f).2.length =
        dfs.length + (dedupFirst (f.map (fun r => r.c1))).length := by
  have key : ∀ (gs : List (List Row7)) (st : Nat × List (List Row7)),
      (gs.foldl (fun (p : Nat × List (List Row7)) g =>
          (p.1 + 1, p.2 ++ [g.map (fun r => { r with c1 := (p.1 : Int) })])) st).1 =
        st.1 + gs.length ∧
      (gs.foldl (fun (p : Nat × List (List Row7)) g =>
          (p.1 + 1, p.2 ++ [g.map (fun r => { r with c1 := (p.1 : Int) })])) st).2.length =
        st.2.length + gs.length := by
    intro gs
    induction gs with
    | nil => intro st; simp
    | cons g gs ih =>
      intro st
      simp only [List.foldl]
      rcases ih (st.1 + 1, st.2 ++ [g.map (fun r => { r with c1 := (st.1 : Int) })]) with ⟨h1, h2⟩
      constructor
      · rw [h1]; simp; omega
      · rw [h2]; simp [List.length_append]; omega
  intro c dfs f
  have hlen : (groupsOf f).length = (dedupFirst (f.map (fun r => r.c1))).length := by
    simp [groupsOf, sortedKeys, length_sortInts]
  rcases key (groupsOf f) (c, dfs) with ⟨h1, h2⟩
  exact ⟨by simpa [hlen] using h1, by simpa [hlen] using h2⟩

/-! ### Counterexamples for the corrected claims -/

/-- C1 counterexample: on a file whose column-1 local event ids appear in the
order 2, 1, the merge output differs from the specification-text variant that
groups in first-seen order — pandas `groupby` iterates groups in ascending key
order, so the group of id 1 (not the first-seen id 2) receives global id 1. -/
theorem combine_arrivals_group_order_cex :
    combineArrivals [[⟨1, 2, 7, 0, 0, 0, 0⟩, ⟨2, 1, 8, 0, 0, 0, 0⟩]] ≠
      combineArrivalsFirstSeen [[⟨1, 2, 7, 0, 0, 0, 0⟩, ⟨2, 1, 8, 0, 0, 0, 0⟩]] := by
  decide

/-- C2 counterexample: with source inversion on, in the second input file —
which has exactly one header (at index 0), hence no header-after-the-first —
the non-header line "7 1.0" is still corrected: it surfaces in the combined
output (at offset 5 + 1 = 6) with first field 7 + 4·1 = 11.  The boundary list
`idxs[1:]` contains the appended end-of-file index, so the last four lines of
every file are corrected too, contradicting "only before each
header-after-the-first". -/
theorem frechet_correction_beyond_headers_cex :
    headerIdxs 3 ["0 1 1 1", "7 1.0", "8 0", "9 0", "10 0"] = [0] ∧
    isHeaderLine 3 "7 1.0" = false ∧
    pyInt? ((fieldsSp (replaceTab "7 1.0")).getD 0 "") = some 7 ∧
    offsetOf [["0 1 1 1", "1 0", "2 0", "3 0", "4 0"],
      ["0 1 1 1", "7 1.0", "8 0", "9 0", "10 0"]] 1 + 1 = 6 ∧
    pyInt? ((fieldsSp (replaceTab ((combineRaySep "frechet.dat"
        [["0 1 1 1", "1 0", "2 0", "3 0", "4 0"],
         ["0 1 1 1", "7 1.0", "8 0", "9 0", "10 0"]] 3 true).getD 6 ""))).getD 0 "") =
      some 11 := by
  exact ⟨rfl, rfl, rfl, rfl, rfl⟩

/-- C3 counterexample: a catalog with one source whose id has no entry in the
receiver dictionary makes `split_sources` raise `KeyError`, instead of
completing with zero receivers for that source. -/
theorem split_missing_source_cex :
    splitSourcesCore [(1, ["0", "1.5 1.5 1.5", "1"])] [(1, ["0", "1.5 1.5 1.5", "1"])]
      [] false 1 = .error "KeyError: 1" := by
  rfl

/-- C4 counterexample: on catalog text with no decimal point on any line, both
parsers return empty collections normally — no error of any kind is raised and
no boundary-monotonicity check exists. -/
theorem load_no_location_cex :
    loadSourcesList "2\nabc\ndef" = [] ∧
    loadReceiverDict "2\nabc\ndef" = .ok ([], false) := by
  exact ⟨rfl, rfl⟩

/-- C5 counterexample: for an empty source catalog (S = 0) the clamp reduces
the worker count to 0 and `np.array_split` raises `ValueError`, so no
partitions (in particular not min(N, 0) = 0 of them) are produced. -/
theorem split_zero_sources_cex :
    splitSourcesCore [] [] [] false 2 =
      .error "ValueError: number sections must be larger than 0." := by
  rfl

/-! ### Claim C4 (amended): no location line means empty parse, not an error -/

/-- Inversion of `isOkE`: a non-ok `Except` is an error. -/
theorem error_of_not_isOkE {ε α : Type} (x : Except ε α) (h : isOkE x = false) :
    ∃ e, x = .error e := by
  cases x with
  | error e => exact ⟨e, rfl⟩
  | ok a => simp [isOkE] at h

/-- Element of the left list of a zip of equally long lists appears as a first
component. -/
theorem mem_zip_left {α β : Type} (l₁ : List α) (l₂ : List β) (a : α)
    (ha : a ∈ l₁) (hlen : l₁.length = l₂.length) : ∃ b, (a, b) ∈ l₁.zip l₂ := by
  induction l₁ generalizing l₂ with
  | nil => simp at ha
  | cons x xs ih =>
    cases l₂ with
    | nil => simp at hlen
    | cons y ys =>
      rcases List.mem_cons.mp ha with rfl | ha
      · exact ⟨y, by simp⟩
      · obtain ⟨b, hb⟩ := ih ys ha (by simpa using hlen)
        exact ⟨b, by simp [hb]⟩

/-- C4 (amended): on catalog text in which no line holds a decimal point,
`load_sources_list` returns the empty list and `load_receiver_dict` returns
the empty dictionary with the moddata flag off; neither raises any error, and
no monotonicity condition on block boundaries is ever checked. -/
theorem load_no_location_empty (text : String)
    (h : ∀ l ∈ catalogLines text, hasDot l = false) :
    loadSourcesList text = [] ∧ loadReceiverDict text = .ok ([], false) := by
  have hget : ∀ i ∈ List.range (catalogLines text).length,
      hasDot ((catalogLines text).getD i "") = false := by
    intro i hi
    have hlt : i < (catalogLines text).length := List.mem_range.mp hi
    rw [List.getD_eq_getElem _ _ hlt]
    exact h _ (List.getElem_mem hlt)
  have hstarts : sourceStarts (catalogLines text) = [] := by
    rw [sourceStarts, List.filterMap_eq_nil]
    intro i hi
    rw [hget i hi]
    simp
  have hrstarts : receiverStarts (catalogLines text) = [] := by
    rw [receiverStarts, List.filter_eq_nil]
    intro i hi
    rw [hget i hi]
    simp
  constructor
  · simp [loadSourcesList, hstarts]
  · simp [loadReceiverDict, hrstarts]
    rfl

/-- C4 witness: the amended statement applied to a concrete two-line catalog
with no decimal point anywhere. -/
theorem load_no_location_empty_witness :
    loadSourcesList "2\nabc" = [] ∧ loadReceiverDict "2\nabc" = .ok ([], false) :=
  load_no_location_empty "2\nabc" (by decide)

/-! ### Claim C6: multi-source filtering -/

/-- C6: for any receiver block whose source-id line tokenizes to 2, 5, 9 and
whose path line tokenizes to three path specs, filtering against a partition
holding exactly sources 5 and 9 rewrites the count line to 2, the id line to
exactly "1", "2" in that order, and the path line to the second and third path
specs in that order; the location line (and everything else) is untouched. -/
theorem reset_moddata_filtering (block : List String) (p1 p2 p3 : String)
    (hids : wsTokens (trimStr (block.getD 2 "")) = ["2", "5", "9"])
    (hpaths : wsTokens (trimStr (block.getD 3 "")) = [p1, p2, p3]) :
    resetModdataRcv [block] [5, 9] =
      [((block.set 1 "           2").set 2 "           1           2").set 3
        ("           " ++ joinSep "           " [p2, p3])] := by
  simp only [resetModdataRcv, List.map, resetBlock, hids, hpaths]
  rfl

/-- C6 witness: the theorem applied to a concrete moddata receiver block. -/
theorem reset_moddata_filtering_witness :
    resetModdataRcv [["1.0 2.0", "           3", "   2 5 9", "   pa pb pc"]] [5, 9] =
      [(((["1.0 2.0", "           3", "   2 5 9", "   pa pb pc"].set 1
          "           2").set 2 "           1           2").set 3
        ("           " ++ joinSep "           " ["pb", "pc"]))] :=
  reset_moddata_filtering _ "pa" "pb" "pc" (by rfl) (by rfl)

/-! ### Claim C3 (amended): a missing source raises KeyError -/

/-- C3 (amended): in single-source mode, a source anywhere in the catalog
whose id is missing from the receiver dictionary makes `split_sources` fail
(the `receiver_dict[s_id]` lookup raises `KeyError`), rather than yield zero
receivers for it. -/
theorem split_missing_source_error (sources sourcesRef : List (Int × List String))
    (dict : List (Int × List (List String))) (N : Nat) (i : Int) (b : List String)
    (hmem : (i, b) ∈ sources) (hmiss : dictFind dict i = none) :
    isOkE (splitSourcesCore sources sourcesRef dict false N) = false := by
  simp only [splitSourcesCore]
  by_cases hlen : sources.length ≠ sourcesRef.length
  · rw [if_pos hlen]; rfl
  · rw [if_neg hlen]
    push_neg at hlen
    by_cases hc : (if sources.length < N then sources.length else N) = 0
    · rw [if_pos hc]; rfl
    · rw [if_neg hc]
      set c := if sources.length < N then sources.length else N with hcdef
      have hpos : 0 < c := Nat.pos_of_ne_zero hc
      have hflat : (arraySplit sources c).flatten = sources :=
        flatten_splitBySizes _ _ (sum_chunkSizes _ _ hpos)
      have hmem' : (i, b) ∈ (arraySplit sources c).flatten := by rw [hflat]; exact hmem
      obtain ⟨chunk, hchunk, hinchunk⟩ := List.mem_flatten.mp hmem'
      have hlens : (arraySplit sources c).length = (arraySplit sourcesRef c).length := by
        rw [arraySplit, arraySplit, length_splitBySizes, length_splitBySizes,
          length_chunkSizes _ _ hpos, length_chunkSizes _ _ hpos]
      obtain ⟨cref, hzip⟩ := mem_zip_left _ _ _ hchunk hlens
      have hchunkerr : isOkE (processChunk dict false (chunk, cref)) = false := by
        cases hch : chunk with
        | nil => rw [hch] at hinchunk; simp at hinchunk
        | cons hd tl =>
          obtain ⟨fid, fb⟩ := hd
          subst hch
          have hin : i ∈ ((fid, fb) :: tl).map (fun p : Int × List String => p.1) :=
            List.mem_map.mpr ⟨(i, b), hinchunk, rfl⟩
          have hinner : isOkE (eMapM (fun sid =>
              match dictFind dict sid with
              | none => .error ("KeyError: " ++ toString sid)
              | some rs =>
                .ok (if sid = sid - fid + 1 then rs
                     else rs.map (fun r => modifyReceiverSource r (sid - fid + 1))))
              (((fid, fb) :: tl).map (fun p : Int × List String => p.1))) = false := by
            apply eMapM_error_of_mem _ _ i hin
            rw [hmiss]
            rfl
          obtain ⟨e, he⟩ := error_of_not_isOkE _ hinner
          simp only [processChunk, receiversFor]
          rw [he]
          rfl
      have htop := eMapM_error_of_mem (processChunk dict false) _ _ hzip hchunkerr
      obtain ⟨e, he⟩ := error_of_not_isOkE _ htop
      rw [he]
      rfl

/-- C3 witness: the amended statement at a concrete catalog — two sources, the
second of which has no receivers in the dictionary. -/
theorem split_missing_source_error_witness :
    isOkE (splitSourcesCore [(1, ["0", "1.5", "1"]), (2, ["0", "2.5", "1"])]
      [(1, ["0", "1.5", "1"]), (2, ["0", "2.5", "1"])]
      [(1, [["1.0", "           1", "           1", "           a"]])] false 2) = false :=
  split_missing_source_error _ _ _ 2 2 ["0", "2.5", "1"] (by decide) (by rfl)

/-! ### Claim C1 (amended): arrivals grouping is by ascending id -/

/-- Numbering distributes over appending group lists. -/
theorem numberGroups_append (c : Nat) (gs₁ gs₂ : List (List Row7)) :
    numberGroups c (gs₁ ++ gs₂) =
      numberGroups c gs₁ ++ numberGroups (c + gs₁.length) gs₂ := by
  induction gs₁ generalizing c with
  | nil => simp [numberGroups]
  | cons g gs ih =>
    simp only [List.cons_append, numberGroups, List.length_cons, List.append_eq]
    rw [ih, show c + 1 + gs.length = c + (gs.length + 1) from by omega]

/-- The group fold of one arrivals file appends the file's groups, numbered
consecutively from the incoming counter. -/
theorem processArrFile_eq (st : Nat × List (List Row7)) (f : List Row7) :
    processArrFile st f =
      (st.1 + (groupsOf f).length, st.2 ++ numberGroups st.1 (groupsOf f)) := by
  have key : ∀ (gs : List (List Row7)) (c : Nat) (dfs : List (List Row7)),
      gs.foldl (fun (p : Nat × List (List Row7)) g =>
          (p.1 + 1, p.2 ++ [g.map (fun r => { r with c1 := (p.1 : Int) })])) (c, dfs) =
        (c + gs.length, dfs ++ numberGroups c gs) := by
    intro gs
    induction gs with
    | nil => intro c dfs; simp [numberGroups]
    | cons g gs ih =>
      intro c dfs
      simp only [List.foldl, ih, numberGroups, List.length_cons, Prod.mk.injEq]
      constructor
      · omega
      · simp
  obtain ⟨c, dfs⟩ := st
  exact key (groupsOf f) c dfs

/-- C1 (amended): `combine_arrivals` equals the flat description — per file,
form one group per distinct column-1 value, iterated in ascending id order
(`groupsOf`, matching pandas `groupby` with its default key sort, not
first-seen order); number all groups of all files consecutively starting at 1,
overwrite column 1 of each group with its number, concatenate, and renumber
column 0 contiguously.  In addition `sortedKeys` really is the ascending
enumeration of exactly the ids present in the file. -/
theorem combine_arrivals_sorted_grouping :
    (∀ files : List (List Row7),
       combineArrivals files =
         renumberC0 ((numberGroups 1 ((files.map groupsOf).flatten)).flatten)) ∧
    (∀ f : List Row7,
       (sortedKeys f).Sorted (· ≤ ·) ∧
       ∀ k, k ∈ sortedKeys f ↔ k ∈ f.map (fun r => r.c1)) := by
  constructor
  · intro files
    have key : ∀ (fs : List (List Row7)) (c : Nat) (dfs : List (List Row7)),
        fs.foldl processArrFile (c, dfs) =
          (c + ((fs.map groupsOf).flatten).length,
           dfs ++ numberGroups c ((fs.map groupsOf).flatten)) := by
      intro fs
      induction fs with
      | nil => intro c dfs; simp [numberGroups]
      | cons f fs ih =>
        intro c dfs
        simp only [List.foldl, processArrFile_eq, ih, List.map_cons, List.flatten_cons,
          List.length_append, numberGroups_append, Prod.mk.injEq]
        constructor
        · omega
        · simp
    rw [combineArrivals, key]
    simp
  · intro f
    refine ⟨sorted_sortInts _, fun k => ?_⟩
    rw [sortedKeys, mem_sortInts, mem_dedupFirst]

/-! ### Claim C7: no correction when the inversion flag is off -/

/-- The cons unfolding of `mapAccumL`. -/
theorem mapAccumL_cons {σ α β : Type} (f : σ → α → σ × β) (s : σ) (a : α) (as : List α) :
    mapAccumL f s (a :: as) =
      ((mapAccumL f (f s a).1 as).1, (f s a).2 :: (mapAccumL f (f s a).1 as).2) := rfl

/-- Writing headers back never changes the list length. -/
theorem length_writeBack (data : List String) (ps : List (Nat × List String)) :
    (writeBack data ps).length = data.length := by
  induction ps generalizing data with
  | nil => rfl
  | cons p ps ih =>
    simp only [writeBack, List.foldl] at ih ⊢
    rw [ih, List.length_set]

/-- Positions not named in the write-back list keep their line. -/
theorem writeBack_getD_not_mem (data : List String) (ps : List (Nat × List String))
    (j : Nat) (d : String) (h : ∀ pr ∈ ps, pr.1 ≠ j) :
    (writeBack data ps).getD j d = data.getD j d := by
  induction ps generalizing data with
  | nil => rfl
  | cons p ps ih =>
    simp only [writeBack, List.foldl] at ih ⊢
    rw [ih _ (fun pr hpr => h pr (by simp [hpr])),
      getD_set_ne _ _ _ _ _ (h p (by simp))]

/-- Membership in the header index list. -/
theorem mem_headerIdxs (minN : Nat) (data : List String) (i : Nat) :
    i ∈ headerIdxs minN data ↔
      i < data.length ∧ isHeaderLine minN (data.getD i "") = true := by
  simp [headerIdxs, List.mem_filter, List.mem_range]

/-- One boundary correction keeps the list length. -/
theorem length_corrAt (p idx : Nat) (d : List String) :
    (corrAt p idx d).length = d.length := by
  simp [corrAt, List.foldl, List.length_set]

/-- The whole correction loop keeps the list length. -/
theorem length_frechetCorrection (p : Nat) (ts : List Nat) (d : List String) :
    (frechetCorrection p ts d).length = d.length := by
  induction ts generalizing d with
  | nil => rfl
  | cons t ts ih =>
    simp only [frechetCorrection, List.foldl] at ih ⊢
    rw [ih, length_corrAt]

/-- One merge file never changes its line count. -/
theorem length_processFile (out : String) (minN : Nat) (srcInv : Bool) (st : RsState)
    (data : List String) : (processFile out minN srcInv st data).2.length = data.length := by
  simp only [processFile]
  split
  · rw [length_frechetCorrection, rewriteHeaders, length_writeBack]
  · rw [rewriteHeaders, length_writeBack]

/-- With the inversion flag off, a non-header line is written out verbatim. -/
theorem processFile_nonheader (out : String) (minN : Nat) (st : RsState)
    (data : List String) (j : Nat)
    (hdr : isHeaderLine minN (data.getD j "") = false) :
    (processFile out minN false st data).2.getD j "" = data.getD j "" := by
  simp only [processFile, Bool.and_false, Bool.false_eq_true, if_neg, ite_false]
  rw [rewriteHeaders]
  apply writeBack_getD_not_mem
  intro pr hpr
  have hfst : pr.1 ∈ headerIdxs minN data := (List.of_mem_zip hpr).1
  have := ((mem_headerIdxs minN data pr.1).mp hfst).2
  intro hj
  rw [hj] at this
  rw [this] at hdr
  exact absurd hdr (by simp)

/-- C7: with the source-inversion flag false, `combine_ray_sep_data` copies
every non-header line of every input file to its place in the combined output
byte-for-byte (in particular every field is numerically unchanged); the only
rewritten lines are header lines. -/
theorem ray_sep_no_inversion_frame (out : String) (files : List (List String))
    (minN k j : Nat) (hk : k < files.length) (hj : j < (files.getD k []).length)
    (hdr : isHeaderLine minN ((files.getD k []).getD j "") = false) :
    (combineRaySep out files minN false).getD (offsetOf files k + j) "" =
      (files.getD k []).getD j "" := by
  have aux : ∀ (fs : List (List String)) (st : RsState) (k j : Nat), k < fs.length →
      j < (fs.getD k []).length →
      isHeaderLine minN ((fs.getD k []).getD j "") = false →
      ((mapAccumL (processFile out minN false) st fs).2.flatten).getD
          (offsetOf fs k + j) "" =
        (fs.getD k []).getD j "" := by
    intro fs
    induction fs with
    | nil => intro st k j hk; simp at hk
    | cons f fs ih =>
      intro st k j hk hj hdr
      rw [mapAccumL_cons]
      simp only [List.flatten_cons]
      cases k with
      | zero =>
        rw [offsetOf, List.take_zero]
        simp only [List.map_nil, List.sum_nil, Nat.zero_add]
        have hlen : (processFile out minN false st f).2.length = f.length :=
          length_processFile out minN false st f
        rw [List.getD_append _ _ _ _ (by rw [hlen]; simpa using hj)]
        simp only [List.getD_cons_zero] at hdr ⊢
        exact processFile_nonheader out minN st f j hdr
      | succ k =>
        have hoff : offsetOf (f :: fs) (k + 1) = f.length + offsetOf fs k := by
          simp [offsetOf, List.take_succ_cons]
        have hlen : (processFile out minN false st f).2.length = f.length :=
          length_processFile out minN false st f
        rw [hoff, show f.length + offsetOf fs k + j =
            f.length + (offsetOf fs k + j) from by omega, ← hlen]
        rw [List.getD_append_right _ _ _ _ (Nat.le_add_right _ _)]
        simp only [Nat.add_sub_cancel_left, List.getD_cons_succ] at hj hdr ⊢
        exact ih _ k j (by simpa using hk) hj hdr
  exact aux files ⟨1, 0, 0⟩ k j hk hj hdr

/-- C7 witness: the theorem applied to one concrete file whose line 1 is a
non-header; the combined output keeps it verbatim. -/
theorem ray_sep_no_inversion_frame_witness :
    (combineRaySep "frechet.dat" [["1 2 3 4", "5.0"]] 3 false).getD
      (offsetOf [["1 2 3 4", "5.0"]] 0 + 1) "" = "5.0" :=
  ray_sep_no_inversion_frame "frechet.dat" [["1 2 3 4", "5.0"]] 3 0 1
    (by decide) (by decide) (by rfl)

/-! ### Claim C2 (amended): the frechet correction window -/

/-- Python index arithmetic `idx - 1` stays nonnegative when `1 ≤ idx`. -/
theorem pyIdxNat_sub1 (t len : Nat) (h : 1 ≤ t) : pyIdxNat ((t : Int) - 1) len = t - 1 := by
  simp only [pyIdxNat]
  rw [if_neg (by omega)]
  omega

/-- Python index arithmetic `idx - 2` stays nonnegative when `2 ≤ idx`. -/
theorem pyIdxNat_sub2 (t len : Nat) (h : 2 ≤ t) : pyIdxNat ((t : Int) - 2) len = t - 2 := by
  simp only [pyIdxNat]
  rw [if_neg (by omega)]
  omega

/-- Python index arithmetic `idx - 3` stays nonnegative when `3 ≤ idx`. -/
theorem pyIdxNat_sub3 (t len : Nat) (h : 3 ≤ t) : pyIdxNat ((t : Int) - 3) len = t - 3 := by
  simp only [pyIdxNat]
  rw [if_neg (by omega)]
  omega

/-- Python index arithmetic `idx - 4` stays nonnegative when `4 ≤ idx`. -/
theorem pyIdxNat_sub4 (t len : Nat) (h : 4 ≤ t) : pyIdxNat ((t : Int) - 4) len = t - 4 := by
  simp only [pyIdxNat]
  rw [if_neg (by omega)]
  omega

/-- One boundary correction fixes exactly the four lines before index `t`. -/
theorem corrAt_getD (p t : Nat) (d : List String) (h4 : 4 ≤ t) (hle : t ≤ d.length)
    (j : Nat) :
    (corrAt p t d).getD j "" =
      if t - 4 ≤ j ∧ j < t then fixFrech p (d.getD j "") else d.getD j "" := by
  simp only [corrAt, List.foldl, List.length_set]
  rw [pyIdxNat_sub1 t _ (by omega), pyIdxNat_sub2 t _ (by omega),
    pyIdxNat_sub3 t _ (by omega), pyIdxNat_sub4 t _ (by omega)]
  rw [getD_set_ne _ _ _ _ _ (by omega : t - 1 ≠ t - 2)]
  rw [getD_set_ne _ _ _ _ _ (by omega : t - 2 ≠ t - 3),
    getD_set_ne _ _ _ _ _ (by omega : t - 1 ≠ t - 3)]
  rw [getD_set_ne _ _ _ _ _ (by omega : t - 3 ≠ t - 4),
    getD_set_ne _ _ _ _ _ (by omega : t - 2 ≠ t - 4),
    getD_set_ne _ _ _ _ _ (by omega : t - 1 ≠ t - 4)]
  by_cases e4 : j = t - 4
  · subst e4
    rw [getD_set_self _ _ _ _ (by simp [List.length_set]; omega), if_pos (by omega)]
  · rw [getD_set_ne _ _ _ _ _ (by omega : t - 4 ≠ j)]
    by_cases e3 : j = t - 3
    · subst e3
      rw [getD_set_self _ _ _ _ (by simp [List.length_set]; omega), if_pos (by omega)]
    · rw [getD_set_ne _ _ _ _ _ (by omega : t - 3 ≠ j)]
      by_cases e2 : j = t - 2
      · subst e2
        rw [getD_set_self _ _ _ _ (by simp [List.length_set]; omega), if_pos (by omega)]
      · rw [getD_set_ne _ _ _ _ _ (by omega : t - 2 ≠ j)]
        by_cases e1 : j = t - 1
        · subst e1
          rw [getD_set_self _ _ _ _ (by omega), if_pos (by omega)]
        · rw [getD_set_ne _ _ _ _ _ (by omega : t - 1 ≠ j), if_neg (by omega)]

/-- The correction loop over disjoint, in-range boundaries fixes exactly the
union of their four-line windows. -/
theorem frechetCorrection_getD (p : Nat) (ts : List Nat) (d : List String)
    (hpw : ts.Pairwise (fun a b => a + 4 ≤ b))
    (hbound : ∀ t ∈ ts, 4 ≤ t ∧ t ≤ d.length) (j : Nat) :
    (frechetCorrection p ts d).getD j "" =
      if ∃ t ∈ ts, t - 4 ≤ j ∧ j < t then fixFrech p (d.getD j "") else d.getD j "" := by
  induction ts generalizing d with
  | nil => simp [frechetCorrection]
  | cons t ts ih =>
    simp only [frechetCorrection, List.foldl] at ih ⊢
    rcases hbound t (by simp) with ⟨h4, hle⟩
    rcases List.pairwise_cons.mp hpw with ⟨hgap, hpw2⟩
    have hbound2 : ∀ u ∈ ts, 4 ≤ u ∧ u ≤ (corrAt p t d).length := by
      intro u hu
      rcases hbound u (by simp [hu]) with ⟨a, b⟩
      rw [length_corrAt]
      exact ⟨a, b⟩
    rw [ih (corrAt p t d) hpw2 hbound2]
    by_cases hw : t - 4 ≤ j ∧ j < t
    · have hnot : ¬ ∃ u ∈ ts, u - 4 ≤ j ∧ j < u := by
        rintro ⟨u, hu, h1, h2⟩
        have := hgap u hu
        omega
      rw [if_neg hnot, corrAt_getD p t d h4 hle j, if_pos hw,
        if_pos (⟨t, by simp, hw⟩ : ∃ v ∈ t :: ts, v - 4 ≤ j ∧ j < v)]
    · by_cases hw2 : ∃ u ∈ ts, u - 4 ≤ j ∧ j < u
      · rw [if_pos hw2, corrAt_getD p t d h4 hle j, if_neg hw]
        obtain ⟨u, hu, h1, h2⟩ := hw2
        rw [if_pos (⟨u, by simp [hu], h1, h2⟩ : ∃ v ∈ t :: ts, v - 4 ≤ j ∧ j < v)]
      · rw [if_neg hw2, corrAt_getD p t d h4 hle j, if_neg hw]
        rw [if_neg (by
          rintro ⟨v, hv, h1, h2⟩
          rcases List.mem_cons.mp hv with rfl | hv
          · exact hw ⟨h1, h2⟩
          · exact hw2 ⟨v, hv, h1, h2⟩)]

/-- C2 (amended): for the sensitivity output with source inversion on,
(i) the output line at any position `j` is the header-rewritten line corrected
by `fixFrech` exactly when `j` lies in the four-line window before some
boundary of `idxs[1:]` (provided the windows are disjoint and boundaries at
least 4), and otherwise the header-rewritten line unchanged; (ii) when the
file has headers at all, that boundary list is the headers-after-the-first
together with the end-of-file index — so the last four lines of the file are
always corrected; (iii) the correction adds exactly `4 * nEvsPrev` (four
times the number of distinct events merged from prior files) to the first
whitespace-separated field of a corrected line. -/
theorem frechet_correction_window (minN : Nat) (st : RsState) (data : List String)
    (hpw : (corrTargets minN data).Pairwise (fun a b => a + 4 ≤ b))
    (hlo : ∀ t ∈ corrTargets minN data, 4 ≤ t) :
    (∀ j, (processFile "frechet.dat" minN true st data).2.getD j "" =
        if ∃ t ∈ corrTargets minN data, t - 4 ≤ j ∧ j < t then
          fixFrech st.nEvsPrev
            ((rewriteHeaders "frechet.dat" minN st.rayIdx st.counter data).2.getD j "")
        else (rewriteHeaders "frechet.dat" minN st.rayIdx st.counter data).2.getD j "") ∧
    (headerIdxs minN data ≠ [] →
      corrTargets minN data = (headerIdxs minN data).tail ++ [data.length]) ∧
    (∀ (p : Nat) (l tok : String) (rest : List String) (v : Int),
        fieldsSp (replaceTab l) = tok :: rest → pyInt? tok = some v →
        fixFrech p l = joinSep "\t" (toString (v + 4 * (p : Int)) :: rest)) := by
  refine ⟨?_, ?_, ?_⟩
  · intro j
    have hlen : (rewriteHeaders "frechet.dat" minN st.rayIdx st.counter data).2.length =
        data.length := by
      rw [rewriteHeaders, length_writeBack]
    have hbound : ∀ t ∈ corrTargets minN data, 4 ≤ t ∧
        t ≤ (rewriteHeaders "frechet.dat" minN st.rayIdx st.counter data).2.length := by
      intro t ht
      refine ⟨hlo t ht, ?_⟩
      rw [hlen]
      have ht2 : t ∈ headerIdxs minN data ++ [data.length] := List.mem_of_mem_tail ht
      rcases List.mem_append.mp ht2 with hh | hh
      · exact Nat.le_of_lt ((mem_headerIdxs minN data t).mp hh).1
      · simp at hh
        omega
    have hguard : (containsStr "frechet.dat" "frechet" && true) = true := rfl
    simp only [processFile, hguard, if_true]
    exact frechetCorrection_getD st.nEvsPrev (corrTargets minN data) _ hpw hbound j
  · intro hne
    cases hh : headerIdxs minN data with
    | nil => exact absurd hh hne
    | cons a as => simp [corrTargets, hh]
  · intro p l tok rest v htoks hv
    simp only [fixFrech, htoks, List.getD_cons_zero, hv, Option.getD_some]
    rfl

/-- C2 witness: the amended statement applied to a two-header file with four
body lines per event and two prior distinct events; position 1 lies in the
window before the second header. -/
theorem frechet_correction_window_witness :
    (processFile "frechet.dat" 3 true ⟨1, 0, 2⟩
        ["0 1 1 1", "1 0", "2 0", "3 0", "4 0", "0 2 2 2", "5 0", "6 0", "7 0", "8 0"]).2.getD
        1 "" =
      if ∃ t ∈ corrTargets 3
          ["0 1 1 1", "1 0", "2 0", "3 0", "4 0", "0 2 2 2", "5 0", "6 0", "7 0", "8 0"],
          t - 4 ≤ 1 ∧ 1 < t then
        fixFrech 2 ((rewriteHeaders "frechet.dat" 3 1 0
          ["0 1 1 1", "1 0", "2 0", "3 0", "4 0", "0 2 2 2", "5 0", "6 0", "7 0", "8 0"]).2.getD
          1 "")
      else (rewriteHeaders "frechet.dat" 3 1 0
        ["0 1 1 1", "1 0", "2 0", "3 0", "4 0", "0 2 2 2", "5 0", "6 0", "7 0", "8 0"]).2.getD
        1 "" :=
  (frechet_correction_window 3 ⟨1, 0, 2⟩
    ["0 1 1 1", "1 0", "2 0", "3 0", "4 0", "0 2 2 2", "5 0", "6 0", "7 0", "8 0"]
    (by decide) (by decide)).1 1

/-! ### Claim C5 (amended): partition shape of the split -/

/-- A successful chunk: nonempty, with every source id found in the
dictionary, `processChunk` returns the chunk itself together with the
concatenated (possibly id-rewritten) receiver lists. -/
theorem processChunk_ok (dict : List (Int × List (List String)))
    (chunk cref : List (Int × List String)) (hne : chunk ≠ [])
    (hall : ∀ q ∈ chunk, (dictFind dict q.1).isSome) :
    processChunk dict false (chunk, cref) =
      .ok ⟨chunk, cref,
        ((chunk.map (fun q => q.1)).map (fun sid =>
          if sid = sid - (chunk.headD (0, [])).1 + 1 then (dictFind dict sid).getD []
          else ((dictFind dict sid).getD []).map
            (fun r => modifyReceiverSource r (sid - (chunk.headD (0, [])).1 + 1)))).flatten⟩ := by
  cases chunk with
  | nil => exact absurd rfl hne
  | cons hd tl =>
    obtain ⟨fid, fb⟩ := hd
    have hmap : eMapM (fun sid =>
        match dictFind dict sid with
        | none => Except.error ("KeyError: " ++ toString sid)
        | some rs => Except.ok (if sid = sid - fid + 1 then rs
            else rs.map (fun r => modifyReceiverSource r (sid - fid + 1))))
        (((fid, fb) :: tl).map (fun p => p.1)) =
        .ok ((((fid, fb) :: tl).map (fun p => p.1)).map (fun sid =>
          if sid = sid - fid + 1 then (dictFind dict sid).getD []
          else ((dictFind dict sid).getD []).map
            (fun r => modifyReceiverSource r (sid - fid + 1)))) := by
      apply eMapM_map_ok
      intro sid hsid
      obtain ⟨q, hq, rfl⟩ := List.mem_map.mp hsid
      have hsome := hall q hq
      cases hfind : dictFind dict q.1 with
      | none => rw [hfind] at hsome; simp at hsome
      | some rs => simp [hfind]
    simp only [processChunk, receiversFor, Bool.false_eq_true, if_false, hmap]
    rfl

/-- Positivity of the clamped core count for a nonempty catalog and a positive
request. -/
theorem clampedCores_pos (S N : Nat) (hN : 0 < N) (hS : 0 < S) :
    0 < if S < N then S else N := by
  split <;> omega

/-- The clamped core count never exceeds the catalog size. -/
theorem clampedCores_le (S N : Nat) : (if S < N then S else N) ≤ max S N := by
  split <;> omega

/-- Successful run of the split: with a positive request, a nonempty catalog,
matching reference length and a fully populated receiver dictionary, the split
succeeds and the partitions carry exactly the `np.array_split` chunks as their
source lists. -/
theorem splitSourcesCore_ok_structure (sources sourcesRef : List (Int × List String))
    (dict : List (Int × List (List String))) (N : Nat)
    (hN : 0 < N) (hS : sources ≠ [])
    (hlen : sources.length = sourcesRef.length)
    (hdict : ∀ q ∈ sources, (dictFind dict q.1).isSome) :
    ∃ parts, splitSourcesCore sources sourcesRef dict false N =
        .ok (parts, if sources.length < N then sources.length else N) ∧
      parts.map (fun p => p.subS) =
        arraySplit sources (if sources.length < N then sources.length else N) := by
  have hSpos : 0 < sources.length := List.length_pos.mpr hS
  set c := if sources.length < N then sources.length else N with hcdef
  have hcpos : 0 < c := clampedCores_pos _ _ hN hSpos
  have hcle : c ≤ sources.length := by rw [hcdef]; split <;> omega
  have hsum : (chunkSizes sources.length c).sum = sources.length := sum_chunkSizes _ _ hcpos
  have hmaplen : (arraySplit sources c).map List.length = chunkSizes sources.length c :=
    map_length_splitBySizes _ _ hsum
  have hflat : (arraySplit sources c).flatten = sources := flatten_splitBySizes _ _ hsum
  have hchunk_ne : ∀ chunk ∈ arraySplit sources c, chunk ≠ [] := by
    intro chunk hm
    have hlm : chunk.length ∈ chunkSizes sources.length c := by
      rw [← hmaplen]
      exact List.mem_map.mpr ⟨chunk, hm, rfl⟩
    have hdivpos : 0 < sources.length / c := Nat.div_pos hcle hcpos
    rcases mem_chunkSizes _ _ _ hlm with h | h
    · exact List.ne_nil_of_length_pos (by omega)
    · exact List.ne_nil_of_length_pos (by omega)
  have hchunk_sub : ∀ chunk ∈ arraySplit sources c, ∀ q ∈ chunk, q ∈ sources := by
    intro chunk hm q hq
    rw [← hflat]
    exact List.mem_flatten.mpr ⟨chunk, hm, hq⟩
  have hziplen : (arraySplit sources c).length = (arraySplit sourcesRef c).length := by
    rw [arraySplit, arraySplit, length_splitBySizes, length_splitBySizes,
      length_chunkSizes _ _ hcpos, length_chunkSizes _ _ hcpos]
  have hok : eMapM (processChunk dict false)
      ((arraySplit sources c).zip (arraySplit sourcesRef c)) =
      .ok (((arraySplit sources c).zip (arraySplit sourcesRef c)).map
        (fun pr => ⟨pr.1, pr.2,
          ((pr.1.map (fun q => q.1)).map (fun sid =>
            if sid = sid - (pr.1.headD (0, [])).1 + 1 then (dictFind dict sid).getD []
            else ((dictFind dict sid).getD []).map
              (fun r => modifyReceiverSource r (sid - (pr.1.headD (0, [])).1 + 1)))).flatten⟩)) := by
    apply eMapM_map_ok
    intro pr hpr
    have hfst : pr.1 ∈ arraySplit sources c := (List.of_mem_zip hpr).1
    have := processChunk_ok dict pr.1 pr.2 (hchunk_ne _ hfst)
      (fun q hq => hdict q (hchunk_sub _ hfst q hq))
    simpa using this
  refine ⟨((arraySplit sources c).zip (arraySplit sourcesRef c)).map
      (fun pr => ⟨pr.1, pr.2,
        ((pr.1.map (fun q => q.1)).map (fun sid =>
          if sid = sid - (pr.1.headD (0, [])).1 + 1 then (dictFind dict sid).getD []
          else ((dictFind dict sid).getD []).map
            (fun r => modifyReceiverSource r (sid - (pr.1.headD (0, [])).1 + 1)))).flatten⟩),
    ?_, ?_⟩
  · simp only [splitSourcesCore]
    rw [if_neg (by omega), if_neg (by omega)]
    rw [← hcdef, hok]
  · rw [List.map_map]
    have : ((fun p : Partition => p.subS) ∘ (fun pr :
        List (Int × List String) × List (Int × List String) => (⟨pr.1, pr.2,
          ((pr.1.map (fun q => q.1)).map (fun sid =>
            if sid = sid - (pr.1.headD (0, [])).1 + 1 then (dictFind dict sid).getD []
            else ((dictFind dict sid).getD []).map
              (fun r => modifyReceiverSource r (sid - (pr.1.headD (0, [])).1 + 1)))).flatten⟩ :
          Partition))) = Prod.fst := rfl
    rw [this]
    exact List.map_fst_zip _ _ (le_of_eq hziplen)

/-- C5 (amended): for a nonempty catalog (S ≥ 1), positive requested worker
count, matching reference catalog and fully populated receiver index, the
split succeeds with effective core count min(N, S); it yields min(N, S)
partitions that concatenate back to the catalog in order (contiguous and
order-preserving), whose local-source counts sum to S and differ pairwise by
at most 1.  (For S = 0 the split instead raises, see the counterexample.) -/
theorem split_partition_shape (sources sourcesRef : List (Int × List String))
    (dict : List (Int × List (List String))) (N : Nat)
    (hN : 0 < N) (hS : sources ≠ [])
    (hlen : sources.length = sourcesRef.length)
    (hdict : ∀ q ∈ sources, (dictFind dict q.1).isSome) :
    isOkE (splitSourcesCore sources sourcesRef dict false N) = true ∧
    (∀ parts coresEff,
      splitSourcesCore sources sourcesRef dict false N = .ok (parts, coresEff) →
      coresEff = min N sources.length ∧
      parts.length = min N sources.length ∧
      (parts.map (fun p => p.subS)).flatten = sources ∧
      (parts.map (fun p => p.subS.length)).sum = sources.length ∧
      ∀ p ∈ parts, ∀ q ∈ parts, p.subS.length ≤ q.subS.length + 1) := by
  obtain ⟨parts0, heq, hmap⟩ :=
    splitSourcesCore_ok_structure sources sourcesRef dict N hN hS hlen hdict
  have hSpos : 0 < sources.length := List.length_pos.mpr hS
  have hcpos : 0 < if sources.length < N then sources.length else N :=
    clampedCores_pos _ _ hN hSpos
  have hcle : (if sources.length < N then sources.length else N) ≤ sources.length := by
    split <;> omega
  have hcmin : (if sources.length < N then sources.length else N) = min N sources.length := by
    rcases Nat.lt_or_ge sources.length N with hlt | hge
    · rw [if_pos hlt, Nat.min_eq_right (Nat.le_of_lt hlt)]
    · rw [if_neg (by omega), Nat.min_eq_left hge]
  have hsum : (chunkSizes sources.length
      (if sources.length < N then sources.length else N)).sum = sources.length :=
    sum_chunkSizes _ _ hcpos
  have hmaplen : (arraySplit sources
        (if sources.length < N then sources.length else N)).map List.length =
      chunkSizes sources.length (if sources.length < N then sources.length else N) :=
    map_length_splitBySizes _ _ hsum
  constructor
  · rw [heq]; rfl
  · intro parts coresEff h
    rw [heq] at h
    have hinj : parts0 = parts ∧
        (if sources.length < N then sources.length else N) = coresEff := by
      have := h
      simp only [Except.ok.injEq, Prod.mk.injEq] at this
      exact this
    obtain ⟨rfl, hco⟩ := hinj
    refine ⟨by rw [← hco, hcmin], ?_, ?_, ?_, ?_⟩
    · have : parts0.length = (parts0.map (fun p => p.subS)).length := by simp
      rw [this, hmap, arraySplit, length_splitBySizes, length_chunkSizes _ _ hcpos, hcmin]
    · rw [hmap]
      exact flatten_splitBySizes _ _ hsum
    · have : parts0.map (fun p => p.subS.length) =
          (parts0.map (fun p => p.subS)).map List.length := by
        rw [List.map_map]; rfl
      rw [this, hmap, hmaplen]
      exact hsum
    · intro p hp q hq
      have hpmem : p.subS.length ∈ chunkSizes sources.length
          (if sources.length < N then sources.length else N) := by
        rw [← hmaplen]
        exact List.mem_map.mpr ⟨p.subS, by rw [← hmap]; exact List.mem_map.mpr ⟨p, hp, rfl⟩, rfl⟩
      have hqmem : q.subS.length ∈ chunkSizes sources.length
          (if sources.length < N then sources.length else N) := by
        rw [← hmaplen]
        exact List.mem_map.mpr ⟨q.subS, by rw [← hmap]; exact List.mem_map.mpr ⟨q, hq, rfl⟩, rfl⟩
      rcases mem_chunkSizes _ _ _ hpmem with h1 | h1 <;>
        rcases mem_chunkSizes _ _ _ hqmem with h2 | h2 <;> omega

/-- C5 witness: three sources over two requested workers split into partitions
of sizes 2 and 1 with effective core count 2 = min(2, 3). -/
theorem split_partition_shape_witness :
    isOkE (splitSourcesCore
      [(1, ["0", "1.1", "1"]), (2, ["0", "2.2", "1"]), (3, ["0", "3.3", "1"])]
      [(1, ["0", "1.1", "1"]), (2, ["0", "2.2", "1"]), (3, ["0", "3.3", "1"])]
      [(1, [["1.0", "           1", "           1", "           a"]]),
       (2, [["2.0", "           1", "           2", "           b"]]),
       (3, [["3.0", "           1", "           3", "           c"]])] false 2) = true :=
  (split_partition_shape _ _ _ 2 (by decide) (by decide) (by rfl) (by decide)).1

/-! ### Claim C10: the first partition's receivers are written unchanged -/

/-- Inversion of a successful `eMapM` on a cons cell. -/
theorem eMapM_ok_cons {α β : Type} (f : α → Except String β) (a : α) (l : List α)
    (bs : List β) (h : eMapM f (a :: l) = .ok bs) :
    ∃ b bs2, f a = .ok b ∧ eMapM f l = .ok bs2 ∧ bs = b :: bs2 := by
  simp only [eMapM] at h
  cases hfa : f a with
  | error e => rw [hfa] at h; exact absurd h (by simp)
  | ok b =>
    rw [hfa] at h
    cases hrest : eMapM f l with
    | error e => rw [hrest] at h; exact absurd h (by simp)
    | ok bs2 =>
      rw [hrest] at h
      refine ⟨b, bs2, rfl, rfl, ?_⟩
      have := h
      simp only [Except.ok.injEq] at this
      exact this.symm

/-- A nonempty take starts with the head of the list. -/
theorem headD_of_take_eq_cons {α : Type} (l : List α) (n : Nat) (a : α) (t : List α)
    (d : α) (h : l.take n = a :: t) : l.headD d = a := by
  cases l with
  | nil => simp at h
  | cons x xs =>
    cases n with
    | zero => simp at h
    | succ n =>
      simp only [List.take_succ_cons, List.cons.injEq] at h
      simp [h.1]

/-- C10: (a) `modify_receiver_source` replaces the entire third line of a
receiver block with the fixed-format integer — 11 spaces and the new id —
discarding whatever that line held, and leaves every other line unchanged;
(b) in single-source mode, because a block is rewritten only when the local id
differs from the original id, and the first chunk starts at the catalog's
first source (id 1, so local id = original id throughout the chunk), every
receiver block of the first partition is exactly the dictionary's block —
byte-for-byte the original catalog text. -/
theorem first_partition_receivers_identical :
    (∀ (ls : List String) (n : Int) (j : Nat), 3 ≤ ls.length →
        (modifyReceiverSource ls n).getD 2 "" = "           " ++ toString n ∧
        (j ≠ 2 → (modifyReceiverSource ls n).getD j "" = ls.getD j "")) ∧
    (∀ (sources sourcesRef : List (Int × List String))
        (dict : List (Int × List (List String))) (N : Nat)
        (parts : List Partition) (coresEff : Nat),
        (sources.headD (0, [])).1 = 1 →
        splitSourcesCore sources sourcesRef dict false N = .ok (parts, coresEff) →
        (parts.headD ⟨[], [], []⟩).receivers =
          (((arraySplit sources coresEff).headD []).map
            (fun q => (dictFind dict q.1).getD [])).flatten) := by
  constructor
  · intro ls n j h3
    constructor
    · exact getD_set_self _ _ _ _ (by omega)
    · intro hj
      exact getD_set_ne _ _ _ _ _ (fun h => hj h.symm)
  · intro sources sourcesRef dict N parts coresEff hhead hok
    simp only [splitSourcesCore] at hok
    by_cases hlen : sources.length ≠ sourcesRef.length
    · rw [if_pos hlen] at hok; exact absurd hok (by simp)
    · rw [if_neg hlen] at hok
      push_neg at hlen
      by_cases hc : (if sources.length < N then sources.length else N) = 0
      · rw [if_pos hc] at hok; exact absurd hok (by simp)
      · rw [if_neg hc] at hok
        set c := if sources.length < N then sources.length else N with hcdef
        cases hm : eMapM (processChunk dict false)
            ((arraySplit sources c).zip (arraySplit sourcesRef c)) with
        | error e => rw [hm] at hok; exact absurd hok (by simp)
        | ok ps =>
          rw [hm] at hok
          have hinj : ps = parts ∧ c = coresEff := by
            have := hok
            simp only [Except.ok.injEq, Prod.mk.injEq] at this
            exact this
          obtain ⟨rfl, hco⟩ := hinj
          rw [← hco]
          cases ha : arraySplit sources c with
          | nil =>
            rw [ha] at hm
            have h0 : eMapM (processChunk dict false)
                (([] : List (List (Int × List String))).zip (arraySplit sourcesRef c)) =
                Except.ok ([] : List Partition) := rfl
            rw [h0] at hm
            have hps : ([] : List Partition) = ps := by
              have := hm
              simp only [Except.ok.injEq] at this
              exact this
            rw [← hps]
            simp
          | cons chunk0 rest =>
            cases hb : arraySplit sourcesRef c with
            | nil =>
              have h1 : (arraySplit sources c).length = c := by
                rw [arraySplit, length_splitBySizes,
                  length_chunkSizes _ _ (Nat.pos_of_ne_zero hc)]
              have h2 : (arraySplit sourcesRef c).length = c := by
                rw [arraySplit, length_splitBySizes,
                  length_chunkSizes _ _ (Nat.pos_of_ne_zero hc)]
              rw [hb] at h2
              rw [ha] at h1
              simp at h1 h2
              omega
            | cons cref0 rest2 =>
              rw [ha, hb] at hm
              simp only [List.zip_cons_cons] at hm
              obtain ⟨part0, ps2, hf0, _, hps⟩ := eMapM_ok_cons _ _ _ _ hm
              -- the first chunk is an initial segment of the catalog
              obtain ⟨s0, hchunk0⟩ : ∃ s0, chunk0 = sources.take s0 := by
                cases hcs : chunkSizes sources.length c with
                | nil =>
                  have hl := length_chunkSizes sources.length c (Nat.pos_of_ne_zero hc)
                  rw [hcs] at hl
                  simp at hl
                  omega
                | cons s0 ss =>
                  have harr : arraySplit sources c = sources.take s0 ::
                      splitBySizes ss (sources.drop s0) := by
                    rw [arraySplit, hcs]
                    rfl
                  rw [ha] at harr
                  have := harr
                  simp only [List.cons.injEq] at this
                  exact ⟨s0, this.1⟩
              -- chunk0 is nonempty (it produced an ok partition)
              cases hch : chunk0 with
              | nil =>
                rw [hch] at hf0
                simp [processChunk] at hf0
              | cons q0 tl =>
                obtain ⟨fid, fb⟩ := q0
                have hfid : fid = 1 := by
                  have hhd : sources.headD (0, []) = (fid, fb) := by
                    apply headD_of_take_eq_cons sources s0 _ tl
                    rw [← hchunk0, hch]
                  rw [← hhead, hhd]
                rw [hch] at hf0
                simp only [processChunk, receiversFor, Bool.false_eq_true, if_false] at hf0
                cases hei : eMapM (fun sid =>
                    match dictFind dict sid with
                    | none => Except.error ("KeyError: " ++ toString sid)
                    | some rs => Except.ok (if sid = sid - fid + 1 then rs
                        else rs.map (fun r => modifyReceiverSource r (sid - fid + 1))))
                    (((fid, fb) :: tl).map (fun p => p.1)) with
                | error e => rw [hei] at hf0; exact absurd hf0 (by simp)
                | ok rss =>
                  rw [hei] at hf0
                  have hpart : part0 = ⟨(fid, fb) :: tl, cref0, rss.flatten⟩ := by
                    have := hf0
                    simp only [Except.ok.injEq] at this
                    exact this.symm
                  have hrss : rss = (((fid, fb) :: tl).map (fun p => p.1)).map
                      (fun sid => (dictFind dict sid).getD []) := by
                    apply eMapM_ok_map _ _ _ _ hei
                    intro sid hsid bb hbb
                    cases hfind : dictFind dict sid with
                    | none =>
                      simp only [hfind] at hbb
                      exact absurd hbb (by simp)
                    | some rs =>
                      simp only [hfind] at hbb
                      have hcond : sid = sid - fid + 1 := by rw [hfid]; ring
                      rw [if_pos hcond] at hbb
                      simp only [Except.ok.injEq] at hbb
                      rw [← hbb]
                      simp [hfind]
                  rw [hps, hpart]
                  simp only [List.headD_cons, hch]
                  rw [hrss, List.map_map]
                  rfl

/-- C10 witness: both parts applied concretely — the third-line rewrite of a
4-line block, and a one-source catalog whose sole (first) partition keeps the
dictionary's receiver block verbatim. -/
theorem first_partition_receivers_identical_witness :
    (modifyReceiverSource ["1.0", "x", "y", "z"] 7).getD 2 "" =
      "           " ++ toString (7 : Int) ∧
    (([(⟨[(1, ["0", "1.5", "1"])], [(1, ["0", "1.5", "1"])],
        [["1.0", "           1", "           1", "           a"]]⟩ : Partition)]).headD
        ⟨[], [], []⟩).receivers =
      (((arraySplit [((1 : Int), ["0", "1.5", "1"])] 1).headD []).map
        (fun q => (dictFind
          [(1, [["1.0", "           1", "           1", "           a"]])] q.1).getD [])).flatten :=
  ⟨(first_partition_receivers_identical.1 ["1.0", "x", "y", "z"] 7 0 (by decide)).1,
   first_partition_receivers_identical.2 [(1, ["0", "1.5", "1"])] [(1, ["0", "1.5", "1"])]
     [(1, [["1.0", "           1", "           1", "           a"]])] 1
     [⟨[(1, ["0", "1.5", "1"])], [(1, ["0", "1.5", "1"])],
       [["1.0", "           1", "           1", "           a"]]⟩] 1 (by rfl) (by rfl)⟩
